import Mathlib

set_option linter.unusedSectionVars false

/-!
Shallow embedding of the `picture_sorter` repository core
(`src/picture_sorter/{dates,files,names,paths}.py` and `src/main.py`).

Filenames and other strings are modelled as `List Char`; Python `pathlib.Path`
values are modelled as lists of path components (`List (List Char)`).
A media file is modelled by `MFile`: an identity tag, a terminal filename and
a content digest (the digest abstracts `hashlib.file_digest`).
Python digits (`\d` on the ASCII filenames this tool handles) are modelled by
`Char.isDigit`.
-/

namespace PictureSorter

/-- A filename / string, as a list of characters. -/
abbrev Name := List Char

/-- A `pathlib.Path`, as its list of components (`Path.parts`). -/
abbrev Path := List Name

/-- A media file: an identity tag (to tell files apart), its terminal
filename (`pathlib.Path.name`) and its content digest. -/
structure MFile where
  id : Nat
  name : Name
  digest : Nat
deriving DecidableEq, Repr

instance : Inhabited MFile := ⟨⟨0, [], 0⟩⟩

/-! ### Decimal rendering (Python `f"{i:0{w}d}"`) -/

/-- Fuel-driven decimal rendering of `n` (most significant digit first);
`fuel ≥ n` suffices. Mirrors Python `str(i)` for positive `i`. -/
def toDecAux : Nat → Nat → List Char
  | 0, _ => []
  | fuel + 1, n =>
    if n = 0 then [] else toDecAux fuel (n / 10) ++ [Nat.digitChar (n % 10)]

/-- Decimal rendering of a natural number, mirroring Python `str(n)`. -/
def toDec (n : Nat) : List Char :=
  if n = 0 then ['0'] else toDecAux n n

/-- Numeric value of a digit string (Python `int(s)` on digit-only `s`). -/
def decVal (s : List Char) : Nat :=
  s.foldl (fun a c => 10 * a + (c.toNat - 48)) 0

/-- Python `f"{i:0{w}d}"`: `i` in decimal, left-padded with zeros to width
`w`. -/
def padNum (i w : Nat) : List Char :=
  List.replicate (w - (toDec i).length) '0' ++ toDec i

/-! ### Substring testing (used only in theorem statements / hypotheses) -/

/-- `listStarts pat l`: `l` begins with `pat`. -/
def listStarts : List Char → List Char → Bool
  | [], _ => true
  | _ :: _, [] => false
  | a :: as, b :: bs => a = b && listStarts as bs

/-- `containsSub pat l`: `pat` occurs as a contiguous substring of `l`. -/
def containsSub (pat : List Char) : List Char → Bool
  | [] => listStarts pat []
  | c :: r => listStarts pat (c :: r) || containsSub pat r

/-! ### `pathlib` stem / suffix (CPython: split at the last `'.'` whose
index `i` satisfies `0 < i < len(name) - 1`) -/

/-- On a reversed name, split at the first `'.'` (i.e. the last dot of the
name): returns `(chars after the dot, chars before the dot)`, both reversed. -/
def beforeDot : List Char → Option (List Char × List Char)
  | [] => none
  | c :: r =>
    if c = '.' then some ([], r)
    else (beforeDot r).map (fun p => (c :: p.1, p.2))

/-- `pathlib.PurePath.suffix` of a terminal filename. -/
def fileSuffix (n : Name) : Name :=
  match beforeDot n.reverse with
  | some (t, s) => if s ≠ [] ∧ t ≠ [] then '.' :: t.reverse else []
  | none => []

/-- `pathlib.PurePath.stem` of a terminal filename. -/
def fileStem (n : Name) : Name :=
  match beforeDot n.reverse with
  | some (t, s) => if s ≠ [] ∧ t ≠ [] then s.reverse else n
  | none => n

/-! ### Insertion-ordered grouping (Python `dict.setdefault(k, []).append(v)`
over an insertion-ordered `dict`) -/

variable {α K : Type} [DecidableEq K]

/-- Append `v` to the group of key `k`, creating the group at the end if the
key is new — exactly `d.setdefault(k, []).append(v)` on an insertion-ordered
dict. -/
def upsert (k : K) (v : α) : List (K × List α) → List (K × List α)
  | [] => [(k, [v])]
  | (k', g) :: r => if k' = k then (k', g ++ [v]) :: r else (k', g) :: upsert k v r

/-- Group a list by a key function, preserving first-seen order of keys and
of values within a group. -/
def groupByKey (key : α → K) (l : List α) : List (K × List α) :=
  l.foldl (fun m x => upsert (key x) x m) []

/-- Association lookup on a grouped list ( `d.get(k, [])` ). -/
def lookupG (k : K) : List (K × List α) → List α
  | [] => []
  | (k', g) :: r => if k' = k then g else lookupG k r

/-- Spec-side description of deduplication (§4.1): keep each file whose
digest has not been seen earlier in the input, in input order. Used to state
the refinement claim about `unique_media`. -/
def firstSeenByKey (q : α → K) : List K → List α → List α
  | _, [] => []
  | seen, x :: r =>
    if q x ∈ seen then firstSeenByKey q seen r
    else x :: firstSeenByKey q (q x :: seen) r

end PictureSorter

namespace PictureSorter

/-! ### `dates.py` -/

/-- A `datetime.datetime` restricted to its date fields. -/
structure Date where
  year : Nat
  month : Nat
  day : Nat
deriving DecidableEq, Repr

/-- Leap year test of the proleptic Gregorian calendar
(`calendar.isleap`, used by `datetime`). -/
def isLeap (y : Nat) : Bool :=
  (y % 4 = 0 && y % 100 ≠ 0) || y % 400 = 0

/-- Days in a month of a given year, per `datetime`. -/
def daysInMonth (y m : Nat) : Nat :=
  if m = 2 then (if isLeap y then 29 else 28)
  else if m = 4 ∨ m = 6 ∨ m = 9 ∨ m = 11 then 30
  else 31

/-- `datetime.datetime(y, m, d)`: `some` date if the arguments form a valid
calendar date (`MINYEAR = 1`, `MAXYEAR = 9999`), `none` where CPython raises
`ValueError`. -/
def mkDatetime (y m d : Nat) : Option Date :=
  if 1 ≤ y ∧ y ≤ 9999 ∧ 1 ≤ m ∧ m ≤ 12 ∧ 1 ≤ d ∧ d ≤ daysInMonth y m then
    some ⟨y, m, d⟩
  else none

/-- Calendar-date validity (year at least `datetime.MINYEAR = 1`, month in
`[1, 12]`, day valid for that year and month, leap years included). -/
def validCalendarDate (y m d : Nat) : Prop :=
  1 ≤ y ∧ 1 ≤ m ∧ m ≤ 12 ∧ 1 ≤ d ∧ d ≤ daysInMonth y m

instance (y m d : Nat) : Decidable (validCalendarDate y m d) := by
  unfold validCalendarDate; infer_instance

/-- All (overlapping) 8-digit windows of a string, left to right — the
matches of the lookahead pattern `(?=(\d{4})(\d{2})(\d{2}))` in
`re.findall`, each window given as its 8 characters. -/
def windows : List Char → List (List Char)
  | [] => []
  | c :: r =>
    (if ((c :: r).take 8).length = 8 ∧ ((c :: r).take 8).all Char.isDigit
     then [(c :: r).take 8] else []) ++ windows r

/-- `dates.parse_yyyymmdd`: if the string has exactly one 8-digit window,
build `datetime(year, month, day)` from it; `none` (the `NoDateFound`
exception) otherwise. -/
def parse_yyyymmdd (s : List Char) : Option Date :=
  match windows s with
  | [w] => mkDatetime (decVal (w.take 4)) (decVal ((w.drop 4).take 2))
      (decVal (w.drop 6))
  | _ => none

/-- `dates.parse_date`: try the registered parsers in order, returning the
first success (`none` = the final `NoDateFound`). The list currently holds
only `parse_yyyymmdd`. -/
def parse_date (s : List Char) : Option Date :=
  [parse_yyyymmdd].foldl (fun acc p => match acc with
    | some d => some d
    | none => p s) none

/-! ### `files.py` -/

/-- `files.group_by_hash`: group files with identical content digests,
preserving first-seen order of digests and of files within a group. -/
def group_by_hash (files : List MFile) : List (List MFile) :=
  (groupByKey (fun f => f.digest) files).map (fun kg => kg.2)

/-- `main.save_media`, dedup step: `[f[0] for f in group_by_hash(files)]` —
one representative (the first file) per digest group. -/
def unique_media (files : List MFile) : List MFile :=
  (group_by_hash files).map (fun g => g.headI)

/-! ### `names.py` -/

/-- `math.ceil(math.log10(size + 1))`: the number of decimal digits needed
to write `1..size` (0 when `size = 0`). -/
def zeroPadWidth (size : Nat) : Nat :=
  if size = 0 then 0 else (toDec size).length

/-- `names.generate_names`: systematically numbered names
`name + suffix + zero-padded index + ext` for indices `1..size`. -/
def generate_names (name ext : Name) (size : Nat) (sfx : Name) : List Name :=
  (List.range' 1 size).map (fun i => name ++ sfx ++ padNum i (zeroPadWidth size) ++ ext)

/-! ### `paths.py` -/

/-- `paths.find_duplicate_names`: partition files by terminal filename into
those whose name is unique in the batch and the groups of colliding names. -/
def find_duplicate_names (files : List MFile) :
    List MFile × List (List MFile) :=
  ((groupByKey (fun f => f.name) files).filterMap (fun kg => match kg.2 with
    | [x] => some x
    | _ => none),
   (groupByKey (fun f => f.name) files).filterMap
     (fun kg => if kg.2.length = 1 then none else some kg.2))

/-- `paths.generate_destination`: unique-named files keep their name under
`dest`; each colliding group is renamed via `generate_names` in its original
order. -/
def generate_destination (files : List MFile) (dest : Path) (sfx : Name) :
    List (MFile × Path) :=
  (find_duplicate_names files).1.map (fun f => (f, dest ++ [f.name])) ++
  (find_duplicate_names files).2.flatMap (fun g =>
    (g.zip (generate_names (fileStem g.headI.name) (fileSuffix g.headI.name)
       g.length sfx)).map (fun fn => (fn.1, dest ++ [fn.2])))

/-! ### `main.py` (destination-planning part of `save_media`) -/

/-- `main.NO_DATE`, the sentinel bucket key. -/
def NO_DATE : Name := "no-date".toList

/-- Abbreviated month names, `strftime` `%b` (C locale). -/
def monthAbbrev (m : Nat) : Name :=
  (["?", "Jan", "Feb", "Mar", "Apr", "May", "Jun", "Jul", "Aug", "Sep",
    "Oct", "Nov", "Dec"].map String.toList).getD m []

/-- Abbreviated weekday names indexed by `datetime.weekday()`
(Monday = 0), `strftime` `%a` (C locale). -/
def dayAbbrev (w : Nat) : Name :=
  (["Mon", "Tue", "Wed", "Thu", "Fri", "Sat", "Sun"].map String.toList).getD w []

/-- `datetime.weekday()` (Monday = 0) of a proleptic Gregorian date, via the
day count since 1-01-01 (a Monday). -/
def pyWeekday (y m d : Nat) : Nat :=
  let y' := if m ≤ 2 then y - 1 else y
  let era := y' / 400
  let yoe := y' % 400
  let doy := (153 * (if m ≤ 2 then m + 9 else m - 3) + 2) / 5 + d - 1
  let doe := yoe * 365 + yoe / 4 - yoe / 100 + doy
  (era * 146097 + doe + 2) % 7

/-- `DEPTH2STRFTIME[depth]` applied to a parsed date (`date.strftime`):
depth 1 → `%Y`; depth 2 → `%Y/%m - %b`; depth 3 → `%Y/%m - %b/%d - %a`. -/
def strftimeDepth (depth : Nat) (dt : Date) : Name :=
  let yPart := toDec dt.year
  let mPart := padNum dt.month 2 ++ " - ".toList ++ monthAbbrev dt.month
  let dPart := padNum dt.day 2 ++ " - ".toList ++
    dayAbbrev (pyWeekday dt.year dt.month dt.day)
  if depth = 1 then yPart
  else if depth = 2 then yPart ++ "/".toList ++ mPart
  else if depth = 3 then yPart ++ "/".toList ++ mPart ++ "/".toList ++ dPart
  else []

/-- The bucket key `save_media` computes for one file: the formatted parsed
date, or `NO_DATE` when `parse_date` raises `NoDateFound`. -/
def bucketKey (depth : Nat) (f : MFile) : Name :=
  match parse_date f.name with
  | some dt => strftimeDepth depth dt
  | none => NO_DATE

/-- `pathlib.Path(s).parts` for the relative strings `save_media` builds:
split on `'/'`, dropping empty components. -/
def splitSlash (s : Name) : Path :=
  (s.splitOn '/').filter (fun c => c ≠ [])

/-- The date buckets `save_media` builds for `depth ≥ 1`: an
insertion-ordered map from bucket key to the files assigned to it. -/
def dateBuckets (depth : Nat) (files : List MFile) : List (Name × List MFile) :=
  groupByKey (bucketKey depth) (unique_media files)

/-- `main.save_media`, destination-planning part: deduplicate, then (for
`depth = 0`) plan one batch at the root, or (for `depth ≥ 1`) bucket files
by formatted date / `NO_DATE` and plan each bucket under its key. The
resulting paths are relative to the output root. -/
def save_media_plan (files : List MFile) (depth : Nat) : List (MFile × Path) :=
  if depth = 0 then generate_destination (unique_media files) [] "_#".toList
  else (dateBuckets depth files).flatMap
    (fun kg => generate_destination kg.2 (splitSlash kg.1) "_#".toList)

end PictureSorter

namespace PictureSorter

/-! ### Helper lemmas: digits and windows -/

theorem headI_mem {α : Type} [Inhabited α] {l : List α} (h : l ≠ []) : l.headI ∈ l := by
  cases l with
  | nil => exact absurd rfl h
  | cons a t => simp

theorem digit_char_bounds {c : Char} (h : c.isDigit = true) :
    48 ≤ c.toNat ∧ c.toNat ≤ 57 := by
  unfold Char.isDigit at h
  rw [Bool.and_eq_true, decide_eq_true_iff, decide_eq_true_iff] at h
  exact ⟨h.1, h.2⟩

theorem mem_windows {s w : List Char} (h : w ∈ windows s) :
    w.length = 8 ∧ w.all Char.isDigit = true := by
  induction s with
  | nil => simp [windows] at h
  | cons c r ih =>
    rw [windows] at h
    rcases List.mem_append.1 h with h1 | h2
    · split at h1
      · next hc =>
        rw [List.mem_singleton] at h1
        subst h1
        exact hc
      · simp at h1
    · exact ih h2

theorem decVal_foldl_lt {l : List Char} (hd : l.all Char.isDigit = true) :
    ∀ a, l.foldl (fun a c => 10 * a + (c.toNat - 48)) a < (a + 1) * 10 ^ l.length := by
  induction l with
  | nil => intro a; simp
  | cons c r ih =>
    intro a
    rw [List.all_cons, Bool.and_eq_true] at hd
    have hv : c.toNat - 48 ≤ 9 := by
      have := digit_char_bounds hd.1
      omega
    have h := ih hd.2 (10 * a + (c.toNat - 48))
    have hmono : (10 * a + (c.toNat - 48) + 1) * 10 ^ r.length ≤
        (a + 1) * 10 ^ (r.length + 1) := by
      rw [pow_succ]
      have : 10 * a + (c.toNat - 48) + 1 ≤ (a + 1) * 10 := by omega
      calc (10 * a + (c.toNat - 48) + 1) * 10 ^ r.length
          ≤ ((a + 1) * 10) * 10 ^ r.length := Nat.mul_le_mul_right _ this
        _ = (a + 1) * (10 ^ r.length * 10) := by ring
    calc (c :: r).foldl (fun a c => 10 * a + (c.toNat - 48)) a
        = r.foldl (fun a c => 10 * a + (c.toNat - 48)) (10 * a + (c.toNat - 48)) := rfl
      _ < (10 * a + (c.toNat - 48) + 1) * 10 ^ r.length := h
      _ ≤ (a + 1) * 10 ^ (r.length + 1) := hmono
      _ = (a + 1) * 10 ^ (c :: r).length := by rw [List.length_cons]

theorem decVal_lt_pow {l : List Char} (hd : l.all Char.isDigit = true) :
    decVal l < 10 ^ l.length := by
  have := decVal_foldl_lt hd 0
  simpa [decVal] using this

/-- C2: date extraction counts all overlapping 8-digit windows, and whenever
the number of windows is zero or greater than one — even when they would
parse to the same valid date — the result is `NoDateFound` (`none`). -/
theorem date_ambiguity_rejected :
    (∀ s, (windows s).length ≠ 1 → parse_yyyymmdd s = none) ∧
    (windows "IMG_202304155.jpg".toList).length = 2 ∧
    (windows "123456789".toList).length = 2 ∧
    parse_yyyymmdd "IMG_202304155.jpg".toList = none ∧
    (windows "20230415x20230415.jpg".toList).length = 2 ∧
    parse_yyyymmdd "20230415x20230415.jpg".toList = none ∧
    (windows "vacation.jpg".toList).length = 0 ∧
    parse_yyyymmdd "vacation.jpg".toList = none := by
  refine ⟨?_, by decide, by decide, by decide, by decide, by decide, by decide, by decide⟩
  intro s h
  unfold parse_yyyymmdd
  rcases hw : windows s with _ | ⟨w, _ | ⟨w2, t⟩⟩
  · rfl
  · rw [hw] at h; simp at h
  · rfl

/-- C3: with exactly one 8-digit window, extraction returns `some` of the
window's date exactly when it is a valid calendar date, and the listed
concrete examples behave as stated. -/
theorem date_single_window :
    (∀ s w dt, windows s = [w] →
      (parse_yyyymmdd s = some dt ↔
        (dt = ⟨decVal (w.take 4), decVal ((w.drop 4).take 2), decVal (w.drop 6)⟩ ∧
         validCalendarDate (decVal (w.take 4)) (decVal ((w.drop 4).take 2))
           (decVal (w.drop 6))))) ∧
    parse_yyyymmdd "20230415.jpg".toList = some ⟨2023, 4, 15⟩ ∧
    parse_yyyymmdd "20240229.jpg".toList = some ⟨2024, 2, 29⟩ ∧
    parse_yyyymmdd "20230229.jpg".toList = none ∧
    parse_yyyymmdd "20231332.jpg".toList = none ∧
    parse_yyyymmdd "vacation.jpg".toList = none := by
  refine ⟨?_, by decide, by decide, by decide, by decide, by decide⟩
  intro s w dt h
  have hw : w.length = 8 ∧ w.all Char.isDigit = true :=
    mem_windows (by rw [h]; exact List.mem_singleton_self w)
  have hy : decVal (w.take 4) ≤ 9999 := by
    have hall : (w.take 4).all Char.isDigit = true := by
      rw [List.all_eq_true] at hw ⊢
      exact fun c hc => hw.2 c (List.mem_of_mem_take hc)
    have hlen : (w.take 4).length = 4 := by
      simp [List.length_take, hw.1]
    have := decVal_lt_pow hall
    rw [hlen] at this
    omega
  unfold parse_yyyymmdd
  rw [h]
  show mkDatetime _ _ _ = some dt ↔ _
  unfold mkDatetime
  split
  · next hc =>
    constructor
    · intro hs
      have := Option.some.inj hs
      exact ⟨this.symm, hc.1, hc.2.2.1, hc.2.2.2.1, hc.2.2.2.2.1, hc.2.2.2.2.2⟩
    · intro ⟨hdt, _⟩
      rw [hdt]
  · next hc =>
    constructor
    · intro hs; exact absurd hs (by simp)
    · intro ⟨hdt, hv⟩
      exact absurd ⟨hv.1, hy, hv.2.1, hv.2.2.1, hv.2.2.2.1, hv.2.2.2.2⟩ hc

/-- C9: a single window whose first four digits are `0000` is rejected,
because `datetime` requires the year to be at least 1. -/
theorem date_year_zero_rejected :
    ∀ s w, windows s = [w] → w.take 4 = "0000".toList → parse_yyyymmdd s = none := by
  intro s w h h4
  unfold parse_yyyymmdd
  rw [h]
  show mkDatetime _ _ _ = none
  rw [h4]
  have h0 : decVal "0000".toList = 0 := by decide
  rw [h0]
  unfold mkDatetime
  rw [if_neg]
  intro hc
  exact absurd hc.1 (by decide)

/-- Witness for C2 at a concrete ambiguous input. -/
theorem date_ambiguity_rejected_w :
    (windows "IMG_202304155.jpg".toList).length ≠ 1 ∧
      parse_yyyymmdd "IMG_202304155.jpg".toList = none :=
  ⟨by decide, date_ambiguity_rejected.1 _ (by decide)⟩

/-- Witness for C3 at `"20230415.jpg"`. -/
theorem date_single_window_w :
    windows "20230415.jpg".toList = ["20230415".toList] ∧
      parse_yyyymmdd "20230415.jpg".toList = some ⟨2023, 4, 15⟩ :=
  ⟨by decide,
    (date_single_window.1 _ ("20230415".toList) ⟨2023, 4, 15⟩ (by decide)).mpr
      ⟨by decide, by decide⟩⟩

/-- Witness for C9 at `"00001231.jpg"`. -/
theorem date_year_zero_rejected_w :
    windows "00001231.jpg".toList = ["00001231".toList] ∧
      parse_yyyymmdd "00001231.jpg".toList = none :=
  ⟨by decide, date_year_zero_rejected _ ("00001231".toList) (by decide) (by decide)⟩

end PictureSorter

namespace PictureSorter

/-! ### Grouping lemmas -/

section Grouping

variable {α K : Type} [DecidableEq K] [Inhabited α] {q : α → K}

theorem lookupG_upsert (k k' : K) (v : α) (m : List (K × List α)) :
    lookupG k (upsert k' v m) =
      lookupG k m ++ (if k' = k then [v] else []) := by
  induction m with
  | nil =>
    by_cases h : k' = k <;> simp [upsert, lookupG, h]
  | cons kg r ih =>
    obtain ⟨k0, g⟩ := kg
    by_cases h0 : k0 = k'
    · subst h0
      by_cases h : k0 = k
      · subst h; simp [upsert, lookupG]
      · simp [upsert, lookupG, h]
    · by_cases h : k0 = k
      · subst h
        simp only [upsert, if_neg h0, lookupG, if_pos rfl]
        have : ¬ k' = k0 := fun hc => h0 hc.symm
        simp [this]
      · simp [upsert, lookupG, h0, h, ih]

theorem lookupG_foldl (k : K) :
    ∀ (l : List α) (m : List (K × List α)),
      lookupG k (l.foldl (fun m x => upsert (q x) x m) m) =
        lookupG k m ++ l.filter (fun x => decide (q x = k)) := by
  intro l
  induction l with
  | nil => simp
  | cons x r ih =>
    intro m
    rw [List.foldl_cons, ih, lookupG_upsert, List.filter_cons]
    by_cases h : q x = k <;> simp [h]

theorem lookupG_groupByKey (k : K) (l : List α) :
    lookupG k (groupByKey q l) = l.filter (fun x => decide (q x = k)) := by
  rw [groupByKey, lookupG_foldl]
  simp [lookupG]

theorem keys_upsert (k : K) (v : α) (m : List (K × List α)) :
    (upsert k v m).map Prod.fst =
      if k ∈ m.map Prod.fst then m.map Prod.fst else m.map Prod.fst ++ [k] := by
  induction m with
  | nil => simp [upsert]
  | cons kg r ih =>
    obtain ⟨k0, g⟩ := kg
    by_cases h : k0 = k
    · subst h; simp [upsert]
    · have h' : ¬ k = k0 := fun hc => h hc.symm
      simp only [upsert, if_neg h, List.map_cons, List.mem_cons, h', false_or, ih]
      by_cases hm : k ∈ r.map Prod.fst <;> simp [hm]

theorem nonempty_upsert {k : K} {v : α} {m : List (K × List α)}
    (h : ∀ kg ∈ m, kg.2 ≠ []) : ∀ kg ∈ upsert k v m, kg.2 ≠ [] := by
  induction m with
  | nil => simp [upsert]
  | cons kg0 r ih =>
    obtain ⟨k0, g⟩ := kg0
    intro kg hkg
    by_cases h0 : k0 = k
    · subst h0
      rw [upsert, if_pos rfl, List.mem_cons] at hkg
      rcases hkg with h1 | h2
      · subst h1; simp
      · exact h kg (List.mem_cons_of_mem _ h2)
    · rw [upsert, if_neg h0, List.mem_cons] at hkg
      rcases hkg with h1 | h2
      · subst h1; exact h _ (List.mem_cons_self _ _)
      · exact ih (fun kg' hk => h kg' (List.mem_cons_of_mem _ hk)) kg h2

theorem keyed_upsert {k : K} {v : α} {m : List (K × List α)}
    (hv : q v = k) (h : ∀ kg ∈ m, ∀ x ∈ kg.2, q x = kg.1) :
    ∀ kg ∈ upsert k v m, ∀ x ∈ kg.2, q x = kg.1 := by
  induction m with
  | nil =>
    intro kg hkg x hx
    simp only [upsert, List.mem_singleton] at hkg
    subst hkg
    simp only [List.mem_singleton] at hx
    subst hx; exact hv
  | cons kg0 r ih =>
    obtain ⟨k0, g⟩ := kg0
    intro kg hkg x hx
    by_cases h0 : k0 = k
    · subst h0
      rw [upsert, if_pos rfl, List.mem_cons] at hkg
      rcases hkg with h1 | h2
      · subst h1
        simp only at hx
        rcases List.mem_append.1 hx with hx1 | hx2
        · exact h _ (List.mem_cons_self _ _) x hx1
        · rw [List.mem_singleton] at hx2; subst hx2; exact hv
      · exact h kg (List.mem_cons_of_mem _ h2) x hx
    · rw [upsert, if_neg h0, List.mem_cons] at hkg
      rcases hkg with h1 | h2
      · subst h1; exact h _ (List.mem_cons_self _ _) x hx
      · exact ih (fun kg' hk => h kg' (List.mem_cons_of_mem _ hk)) kg h2 x hx

theorem members_upsert {k : K} {v : α} {m : List (K × List α)} {C : α → Prop}
    (hv : C v) (h : ∀ kg ∈ m, ∀ x ∈ kg.2, C x) :
    ∀ kg ∈ upsert k v m, ∀ x ∈ kg.2, C x := by
  induction m with
  | nil =>
    intro kg hkg x hx
    simp only [upsert, List.mem_singleton] at hkg
    subst hkg
    simp only [List.mem_singleton] at hx
    subst hx; exact hv
  | cons kg0 r ih =>
    obtain ⟨k0, g⟩ := kg0
    intro kg hkg x hx
    by_cases h0 : k0 = k
    · subst h0
      rw [upsert, if_pos rfl, List.mem_cons] at hkg
      rcases hkg with h1 | h2
      · subst h1
        simp only at hx
        rcases List.mem_append.1 hx with hx1 | hx2
        · exact h _ (List.mem_cons_self _ _) x hx1
        · rw [List.mem_singleton] at hx2; subst hx2; exact hv
      · exact h kg (List.mem_cons_of_mem _ h2) x hx
    · rw [upsert, if_neg h0, List.mem_cons] at hkg
      rcases hkg with h1 | h2
      · subst h1; exact h _ (List.mem_cons_self _ _) x hx
      · exact ih (fun kg' hk => h kg' (List.mem_cons_of_mem _ hk)) kg h2 x hx

theorem groupByKey_invariant (l : List α) :
    (∀ kg ∈ groupByKey q l, kg.2 ≠ []) ∧
    (∀ kg ∈ groupByKey q l, ∀ x ∈ kg.2, q x = kg.1) ∧
    (∀ kg ∈ groupByKey q l, ∀ x ∈ kg.2, x ∈ l) := by
  rw [groupByKey]
  suffices h : ∀ (l' : List α) (m : List (K × List α)),
      (∀ kg ∈ m, kg.2 ≠ []) → (∀ kg ∈ m, ∀ x ∈ kg.2, q x = kg.1) →
      (∀ kg ∈ m, ∀ x ∈ kg.2, x ∈ l) → (∀ x ∈ l', x ∈ l) →
      (∀ kg ∈ l'.foldl (fun m x => upsert (q x) x m) m, kg.2 ≠ []) ∧
      (∀ kg ∈ l'.foldl (fun m x => upsert (q x) x m) m, ∀ x ∈ kg.2, q x = kg.1) ∧
      (∀ kg ∈ l'.foldl (fun m x => upsert (q x) x m) m, ∀ x ∈ kg.2, x ∈ l) by
    exact h l [] (by simp) (by simp) (by simp) (fun x hx => hx)
  intro l'
  induction l' with
  | nil => intro m h1 h2 h3 _; exact ⟨h1, h2, h3⟩
  | cons x r ih =>
    intro m h1 h2 h3 hsub
    exact ih _ (nonempty_upsert h1) (keyed_upsert rfl h2)
      (members_upsert (hsub x (List.mem_cons_self _ _)) h3)
      (fun y hy => hsub y (List.mem_cons_of_mem _ hy))

theorem nodup_keys_groupByKey (l : List α) :
    ((groupByKey q l).map Prod.fst).Nodup := by
  rw [groupByKey]
  suffices h : ∀ (l' : List α) (m : List (K × List α)),
      (m.map Prod.fst).Nodup →
      ((l'.foldl (fun m x => upsert (q x) x m) m).map Prod.fst).Nodup by
    exact h l [] (by simp)
  intro l'
  induction l' with
  | nil => intro m hm; exact hm
  | cons x r ih =>
    intro m hm
    refine ih _ ?_
    rw [keys_upsert]
    by_cases hk : q x ∈ m.map Prod.fst
    · rw [if_pos hk]; exact hm
    · rw [if_neg hk]
      exact hm.append (List.nodup_singleton _) (by simpa using hk)

theorem lookupG_of_mem {m : List (K × List α)} {k : K} {g : List α}
    (hnd : (m.map Prod.fst).Nodup) (h : (k, g) ∈ m) : lookupG k m = g := by
  induction m with
  | nil => simp at h
  | cons kg0 r ih =>
    obtain ⟨k0, g0⟩ := kg0
    rw [List.mem_cons] at h
    rw [List.map_cons, List.nodup_cons] at hnd
    rcases h with h1 | h2
    · obtain ⟨hk, hg⟩ := Prod.mk.inj h1.symm
      subst hk
      rw [lookupG, if_pos rfl]
      exact hg
    · have hk0 : k0 ≠ k := by
        intro hc
        refine hnd.1 ?_
        rw [hc]
        exact List.mem_map.2 ⟨(k, g), h2, rfl⟩
      rw [lookupG, if_neg hk0]
      exact ih hnd.2 h2

theorem mem_of_lookupG {m : List (K × List α)} {k : K}
    (h : lookupG k m ≠ []) : (k, lookupG k m) ∈ m := by
  induction m with
  | nil => simp [lookupG] at h
  | cons kg0 r ih =>
    obtain ⟨k0, g0⟩ := kg0
    by_cases h0 : k0 = k
    · subst h0
      rw [lookupG, if_pos rfl] at h ⊢
      exact List.mem_cons_self _ _
    · rw [lookupG, if_neg h0] at h ⊢
      exact List.mem_cons_of_mem _ (ih h)

theorem firstSeen_congr {s1 s2 : List K} (h : ∀ y, y ∈ s1 ↔ y ∈ s2) :
    ∀ l : List α, firstSeenByKey q s1 l = firstSeenByKey q s2 l := by
  intro l
  induction l generalizing s1 s2 with
  | nil => rfl
  | cons x r ih =>
    by_cases hx : q x ∈ s1
    · rw [firstSeenByKey, if_pos hx, firstSeenByKey, if_pos ((h _).1 hx)]
      exact ih h
    · rw [firstSeenByKey, if_neg hx, firstSeenByKey, if_neg (fun hc => hx ((h _).2 hc))]
      refine congrArg _ (ih ?_)
      intro y
      simp only [List.mem_cons]
      exact or_congr Iff.rfl (h y)

theorem map_headI_upsert_mem {k : K} {v : α} {m : List (K × List α)}
    (hk : k ∈ m.map Prod.fst) (hne : ∀ kg ∈ m, kg.2 ≠ []) :
    (upsert k v m).map (fun kg => kg.2.headI) = m.map (fun kg => kg.2.headI) := by
  induction m with
  | nil => simp at hk
  | cons kg0 r ih =>
    obtain ⟨k0, g⟩ := kg0
    by_cases h0 : k0 = k
    · subst h0
      rw [upsert, if_pos rfl]
      have hg : g ≠ [] := hne _ (List.mem_cons_self _ _)
      cases g with
      | nil => exact absurd rfl hg
      | cons a t => simp
    · rw [upsert, if_neg h0]
      have hk' : k ∈ r.map Prod.fst := by
        rw [List.map_cons, List.mem_cons] at hk
        rcases hk with h1 | h2
        · exact absurd h1.symm h0
        · exact h2
      rw [List.map_cons, List.map_cons,
        ih hk' (fun kg hkg => hne kg (List.mem_cons_of_mem _ hkg))]

theorem map_headI_upsert_not_mem {k : K} {v : α} {m : List (K × List α)}
    (hk : k ∉ m.map Prod.fst) :
    (upsert k v m).map (fun kg => kg.2.headI) =
      m.map (fun kg => kg.2.headI) ++ [v] := by
  induction m with
  | nil => simp [upsert]
  | cons kg0 r ih =>
    obtain ⟨k0, g⟩ := kg0
    have h0 : k0 ≠ k := by
      intro hc; exact hk (by rw [List.map_cons, hc]; exact List.mem_cons_self _ _)
    rw [upsert, if_neg h0, List.map_cons, List.map_cons,
      ih (fun hc => hk (List.mem_cons_of_mem _ hc)), List.cons_append]

theorem foldl_heads :
    ∀ (l : List α) (m : List (K × List α)), (∀ kg ∈ m, kg.2 ≠ []) →
      ((l.foldl (fun m x => upsert (q x) x m) m).map (fun kg => kg.2.headI)) =
        m.map (fun kg => kg.2.headI) ++ firstSeenByKey q (m.map Prod.fst) l := by
  intro l
  induction l with
  | nil => intro m _; simp [firstSeenByKey]
  | cons x r ih =>
    intro m hne
    rw [List.foldl_cons, ih _ (nonempty_upsert hne)]
    by_cases hk : q x ∈ m.map Prod.fst
    · rw [map_headI_upsert_mem hk hne, keys_upsert, if_pos hk,
        firstSeenByKey, if_pos hk]
    · rw [map_headI_upsert_not_mem hk, keys_upsert, if_neg hk,
        firstSeenByKey, if_neg hk, List.append_assoc, List.singleton_append]
      refine congrArg _ (congrArg _ ?_)
      refine firstSeen_congr (fun y => ?_) r
      simp [or_comm]

theorem groupByKey_heads (l : List α) :
    (groupByKey q l).map (fun kg => kg.2.headI) = firstSeenByKey q [] l := by
  rw [groupByKey, foldl_heads l [] (by simp)]
  simp

theorem firstSeen_of_nodup :
    ∀ (l : List α) (seen : List K), (l.map q).Nodup →
      (∀ x ∈ l, q x ∉ seen) → firstSeenByKey q seen l = l := by
  intro l
  induction l with
  | nil => intro seen _ _; rfl
  | cons x r ih =>
    intro seen hnd hdis
    rw [List.map_cons, List.nodup_cons] at hnd
    rw [firstSeenByKey, if_neg (hdis x (List.mem_cons_self _ _))]
    refine congrArg _ (ih _ hnd.2 ?_)
    intro y hy
    rw [List.mem_cons]
    rintro (hc | hc)
    · exact hnd.1 (hc ▸ List.mem_map.2 ⟨y, hy, rfl⟩)
    · exact hdis y (List.mem_cons_of_mem _ hy) hc

end Grouping

/-! ### C4 / C7: deduplication -/

/-- C4: `unique_media` (the dedup step of `save_media`) returns, per content
digest, the first file of that digest in input order, ordered by first
occurrence of the digest; each digest group of `group_by_hash` is nonempty
and is exactly the input files carrying its digest, in input order. -/
theorem dedup_first_seen :
    (∀ files, unique_media files = firstSeenByKey (fun f => f.digest) [] files) ∧
    (∀ files g, g ∈ group_by_hash files →
      g ≠ [] ∧ g = files.filter (fun x => decide (x.digest = g.headI.digest))) := by
  constructor
  · intro files
    rw [unique_media, group_by_hash, List.map_map]
    exact groupByKey_heads files
  · intro files g hg
    rw [group_by_hash, List.mem_map] at hg
    obtain ⟨⟨k, g'⟩, hmem, hsnd⟩ := hg
    simp only at hsnd
    subst hsnd
    obtain ⟨hne, hkey, _⟩ := groupByKey_invariant (q := fun f : MFile => f.digest) files
    have hgne : g' ≠ [] := hne _ hmem
    have hk : g'.headI.digest = k := hkey _ hmem _ (headI_mem hgne)
    refine ⟨hgne, ?_⟩
    rw [hk, ← lookupG_groupByKey (q := fun f : MFile => f.digest) k files,
      lookupG_of_mem (nodup_keys_groupByKey files) hmem]

/-- Witness for C4 at a concrete input with a duplicate digest. -/
theorem dedup_first_seen_w :
    (unique_media [⟨0, "a.jpg".toList, 7⟩, ⟨1, "b.jpg".toList, 7⟩, ⟨2, "c.jpg".toList, 9⟩] =
      firstSeenByKey (fun f => f.digest) []
        [⟨0, "a.jpg".toList, 7⟩, ⟨1, "b.jpg".toList, 7⟩, ⟨2, "c.jpg".toList, 9⟩]) ∧
    ([⟨0, "a.jpg".toList, 7⟩, ⟨1, "b.jpg".toList, 7⟩] ∈
      group_by_hash [⟨0, "a.jpg".toList, 7⟩, ⟨1, "b.jpg".toList, 7⟩, ⟨2, "c.jpg".toList, 9⟩]) ∧
    ([(⟨0, "a.jpg".toList, 7⟩ : MFile), ⟨1, "b.jpg".toList, 7⟩] ≠ [] ∧
     [(⟨0, "a.jpg".toList, 7⟩ : MFile), ⟨1, "b.jpg".toList, 7⟩] =
       [⟨0, "a.jpg".toList, 7⟩, ⟨1, "b.jpg".toList, 7⟩, ⟨2, "c.jpg".toList, 9⟩].filter
         (fun x => decide (x.digest =
           ([(⟨0, "a.jpg".toList, 7⟩ : MFile), ⟨1, "b.jpg".toList, 7⟩]).headI.digest))) ∧
    unique_media [⟨0, "a.jpg".toList, 7⟩, ⟨1, "b.jpg".toList, 7⟩, ⟨2, "c.jpg".toList, 9⟩] =
      [⟨0, "a.jpg".toList, 7⟩, ⟨2, "c.jpg".toList, 9⟩] :=
  ⟨dedup_first_seen.1 [⟨0, "a.jpg".toList, 7⟩, ⟨1, "b.jpg".toList, 7⟩, ⟨2, "c.jpg".toList, 9⟩],
   by decide,
   dedup_first_seen.2 [⟨0, "a.jpg".toList, 7⟩, ⟨1, "b.jpg".toList, 7⟩, ⟨2, "c.jpg".toList, 9⟩]
     [⟨0, "a.jpg".toList, 7⟩, ⟨1, "b.jpg".toList, 7⟩] (by decide),
   by decide⟩

/-- C7: deduplicating a list of files whose digests are pairwise distinct
returns exactly the input list, in the same order. -/
theorem dedup_idempotent (files : List MFile)
    (h : (files.map (fun f => f.digest)).Nodup) : unique_media files = files := by
  rw [unique_media, group_by_hash, List.map_map]
  exact (groupByKey_heads files).trans (firstSeen_of_nodup files [] h (by simp))

/-- Witness for C7 at a concrete all-distinct input. -/
theorem dedup_idempotent_w :
    ([⟨0, "a.jpg".toList, 1⟩, ⟨1, "b.jpg".toList, 2⟩].map (fun f : MFile => f.digest)).Nodup ∧
    unique_media [⟨0, "a.jpg".toList, 1⟩, ⟨1, "b.jpg".toList, 2⟩] =
      [⟨0, "a.jpg".toList, 1⟩, ⟨1, "b.jpg".toList, 2⟩] :=
  ⟨by decide, dedup_idempotent _ (by decide)⟩

end PictureSorter

namespace PictureSorter

/-! ### Planner lemmas -/

theorem list_eq_singleton_of {α : Type} {l : List α} {x : α}
    (hlen : l.length = 1) (hx : x ∈ l) : l = [x] := by
  cases l with
  | nil => simp at hx
  | cons a t =>
    cases t with
    | nil =>
      rw [List.mem_singleton] at hx
      rw [hx]
    | cons b u => simp at hlen

theorem name_group_eq_filter (files : List MFile) (k : Name) :
    lookupG k (groupByKey (fun f : MFile => f.name) files) =
      files.filter (fun x => decide (x.name = k)) :=
  lookupG_groupByKey k files

theorem mem_own_name_group {files : List MFile} {f : MFile} (hf : f ∈ files) :
    f ∈ lookupG f.name (groupByKey (fun f : MFile => f.name) files) := by
  rw [name_group_eq_filter]
  rw [List.mem_filter]
  exact ⟨hf, by simp⟩

theorem mem_unique_part {files : List MFile} {f : MFile}
    (h : (f.name, [f]) ∈ groupByKey (fun f : MFile => f.name) files) :
    f ∈ (find_duplicate_names files).1 := by
  rw [find_duplicate_names]
  exact List.mem_filterMap.2 ⟨(f.name, [f]), h, rfl⟩

/-- C6: a file whose terminal filename occurs exactly once in the batch is
planned at `dest / original_filename`, its name unchanged. -/
theorem unique_name_passthrough (files : List MFile) (dest : Path) (sfx : Name)
    (f : MFile) (hf : f ∈ files)
    (hcount : files.countP (fun x => decide (x.name = f.name)) = 1) :
    (f, dest ++ [f.name]) ∈ generate_destination files dest sfx := by
  have hflt : files.filter (fun x => decide (x.name = f.name)) = [f] := by
    refine list_eq_singleton_of ?_ ?_
    · rw [← List.countP_eq_length_filter]
      exact hcount
    · rw [List.mem_filter]
      exact ⟨hf, by simp⟩
  have hlk : lookupG f.name (groupByKey (fun f : MFile => f.name) files) = [f] := by
    rw [name_group_eq_filter, hflt]
  have hmem : (f.name, [f]) ∈ groupByKey (fun f : MFile => f.name) files := by
    have := mem_of_lookupG (m := groupByKey (fun f : MFile => f.name) files)
      (k := f.name) (by rw [hlk]; simp)
    rw [hlk] at this
    exact this
  rw [generate_destination]
  exact List.mem_append_left _ (List.mem_map.2 ⟨f, mem_unique_part hmem, rfl⟩)

/-- Witness for C6. -/
theorem unique_name_passthrough_w :
    ((⟨0, "a.jpg".toList, 0⟩ : MFile) ∈
        [(⟨0, "a.jpg".toList, 0⟩ : MFile), ⟨1, "b.jpg".toList, 1⟩, ⟨2, "b.jpg".toList, 2⟩]) ∧
    ([(⟨0, "a.jpg".toList, 0⟩ : MFile), ⟨1, "b.jpg".toList, 1⟩, ⟨2, "b.jpg".toList, 2⟩].countP
        (fun x => decide (x.name = "a.jpg".toList)) = 1) ∧
    ((⟨0, "a.jpg".toList, 0⟩ : MFile), ["out".toList, "a.jpg".toList]) ∈
      generate_destination
        [⟨0, "a.jpg".toList, 0⟩, ⟨1, "b.jpg".toList, 1⟩, ⟨2, "b.jpg".toList, 2⟩]
        ["out".toList] "_#".toList :=
  ⟨by decide, by decide,
   unique_name_passthrough
     [⟨0, "a.jpg".toList, 0⟩, ⟨1, "b.jpg".toList, 1⟩, ⟨2, "b.jpg".toList, 2⟩]
     ["out".toList] "_#".toList ⟨0, "a.jpg".toList, 0⟩ (by decide) (by decide)⟩

/-! ### Decimal length bounds and collision renaming (C5) -/

theorem toDecAux_zero : ∀ fuel, toDecAux fuel 0 = [] := by
  intro fuel
  cases fuel with
  | zero => rfl
  | succ m => rw [toDecAux, if_pos rfl]

theorem toDecAux_length_bounds :
    ∀ (fuel n : Nat), 1 ≤ n → n ≤ fuel →
      10 ^ ((toDecAux fuel n).length - 1) ≤ n ∧ n < 10 ^ (toDecAux fuel n).length := by
  intro fuel
  induction fuel with
  | zero => intro n h1 h2; omega
  | succ m ih =>
    intro n h1 h2
    rw [toDecAux, if_neg (by omega)]
    by_cases hn : n < 10
    · rw [Nat.div_eq_of_lt hn, toDecAux_zero, List.nil_append, List.length_singleton]
      constructor
      · simpa using h1
      · simpa using hn
    · have hd1 : 1 ≤ n / 10 := by
        rw [Nat.le_div_iff_mul_le (by omega : 0 < 10)]
        omega
      have hlt : n / 10 < n := Nat.div_lt_self (by omega) (by omega)
      have hd2 : n / 10 ≤ m := by omega
      obtain ⟨ihl, ihr⟩ := ih (n / 10) hd1 hd2
      have hL1 : 1 ≤ (toDecAux m (n / 10)).length := by
        by_contra hc
        have h0 : (toDecAux m (n / 10)).length = 0 := by omega
        rw [h0] at ihr
        simp at ihr
        omega
      rw [List.length_append, List.length_singleton, Nat.add_sub_cancel]
      constructor
      · have h3 : 10 ^ (toDecAux m (n / 10)).length =
            10 ^ ((toDecAux m (n / 10)).length - 1) * 10 := by
          conv_lhs => rw [show (toDecAux m (n / 10)).length =
            ((toDecAux m (n / 10)).length - 1) + 1 from by omega]
          rw [pow_succ]
        have h4 : 10 ^ ((toDecAux m (n / 10)).length - 1) * 10 ≤ (n / 10) * 10 :=
          Nat.mul_le_mul_right _ ihl
        have h5 : (n / 10) * 10 ≤ n := Nat.div_mul_le_self n 10
        omega
      · rw [pow_succ]
        have hmod := Nat.div_add_mod n 10
        have hmlt : n % 10 < 10 := Nat.mod_lt _ (by omega)
        omega

theorem zeroPadWidth_bounds (N : Nat) (h : 1 ≤ N) :
    10 ^ (zeroPadWidth N - 1) ≤ N ∧ N < 10 ^ zeroPadWidth N := by
  rw [zeroPadWidth, if_neg (by omega), toDec, if_neg (by omega)]
  exact toDecAux_length_bounds N N h (le_refl N)

theorem generate_names_length (S E sfx : Name) (size : Nat) :
    (generate_names S E size sfx).length = size := by
  simp [generate_names]

theorem generate_names_get (S E sfx : Name) (size i : Nat)
    (h : i < (generate_names S E size sfx).length) :
    (generate_names S E size sfx).get ⟨i, h⟩ =
      S ++ sfx ++ padNum (1 + i) (zeroPadWidth size) ++ E := by
  simp [generate_names, List.get_eq_getElem]

theorem mem_dup_part {files : List MFile} {g : List MFile}
    (hg : g ∈ (find_duplicate_names files).2) :
    ∃ k, (k, g) ∈ groupByKey (fun f : MFile => f.name) files ∧ g.length ≠ 1 := by
  rw [find_duplicate_names] at hg
  simp only [List.mem_filterMap] at hg
  obtain ⟨⟨k, g'⟩, hmem, heq⟩ := hg
  by_cases hl : g'.length = 1
  · rw [if_pos hl] at heq; exact absurd heq (by simp)
  · rw [if_neg hl] at heq
    obtain rfl : g' = g := Option.some.inj heq
    exact ⟨k, hmem, hl⟩

/-- Shared helper: the `i`-th member of a colliding group is planned at the
`i+1`-indexed generated name. -/
theorem dup_member_dest (files : List MFile) (dest : Path) (sfx : Name)
    (g : List MFile) (hg : g ∈ (find_duplicate_names files).2)
    (i : Nat) (hi : i < g.length) :
    (g.get ⟨i, hi⟩,
      dest ++ [fileStem g.headI.name ++ sfx ++ padNum (1 + i) (zeroPadWidth g.length)
        ++ fileSuffix g.headI.name]) ∈ generate_destination files dest sfx := by
  have hlen : (generate_names (fileStem g.headI.name) (fileSuffix g.headI.name)
      g.length sfx).length = g.length := generate_names_length _ _ _ _
  have hn2 : i < (generate_names (fileStem g.headI.name) (fileSuffix g.headI.name)
      g.length sfx).length := by rw [hlen]; exact hi
  have hziplen : i < (g.zip (generate_names (fileStem g.headI.name)
      (fileSuffix g.headI.name) g.length sfx)).length := by
    rw [List.length_zip, hlen]
    simp [hi]
  have hget : (g.zip (generate_names (fileStem g.headI.name)
        (fileSuffix g.headI.name) g.length sfx)).get ⟨i, hziplen⟩ =
      (g.get ⟨i, hi⟩, (generate_names (fileStem g.headI.name)
        (fileSuffix g.headI.name) g.length sfx).get ⟨i, hn2⟩) := by
    simp [List.get_eq_getElem, List.getElem_zip]
  rw [generate_destination]
  refine List.mem_append_right _ (List.mem_flatMap.2 ⟨g, hg, ?_⟩)
  refine List.mem_map.2 ⟨(g.get ⟨i, hi⟩, (generate_names (fileStem g.headI.name)
    (fileSuffix g.headI.name) g.length sfx).get ⟨i, hn2⟩),
    List.mem_iff_get.2 ⟨⟨i, hziplen⟩, hget⟩, ?_⟩
  simp only
  rw [generate_names_get]

/-- C5: member `i` (1-based, original input order) of a colliding group of
size `N` gets destination name `stem + suffix + zero_pad(i, W) + ext` with
`W` = number of digits needed counting from 1 (`10^(W-1) ≤ N < 10^W`), and
the concrete 3-file and 12-file examples come out as stated. -/
theorem collision_renaming :
    (∀ (files : List MFile) (dest : Path) (sfx : Name) (g : List MFile)
       (hg : g ∈ (find_duplicate_names files).2) (i : Nat) (hi : i < g.length),
       (g.get ⟨i, hi⟩,
         dest ++ [fileStem g.headI.name ++ sfx ++ padNum (1 + i) (zeroPadWidth g.length)
           ++ fileSuffix g.headI.name]) ∈ generate_destination files dest sfx) ∧
    (∀ N, 1 ≤ N → 10 ^ (zeroPadWidth N - 1) ≤ N ∧ N < 10 ^ zeroPadWidth N) ∧
    ((generate_destination
        [⟨0, "a.jpg".toList, 0⟩, ⟨1, "a.jpg".toList, 1⟩, ⟨2, "a.jpg".toList, 2⟩]
        [] "_#".toList).map (fun e => e.2) =
      [["a_#1.jpg".toList], ["a_#2.jpg".toList], ["a_#3.jpg".toList]]) ∧
    (generate_names "a".toList ".jpg".toList 12 "_#".toList =
      ["a_#01.jpg".toList, "a_#02.jpg".toList, "a_#03.jpg".toList, "a_#04.jpg".toList,
       "a_#05.jpg".toList, "a_#06.jpg".toList, "a_#07.jpg".toList, "a_#08.jpg".toList,
       "a_#09.jpg".toList, "a_#10.jpg".toList, "a_#11.jpg".toList, "a_#12.jpg".toList]) :=
  ⟨dup_member_dest, zeroPadWidth_bounds, by decide, by decide⟩

/-- Witness for C5 at the 3-file example group. -/
theorem collision_renaming_w :
    ([(⟨1, "a.jpg".toList, 1⟩ : MFile), ⟨2, "a.jpg".toList, 2⟩] ∈
      (find_duplicate_names
        [⟨0, "b.jpg".toList, 0⟩, ⟨1, "a.jpg".toList, 1⟩, ⟨2, "a.jpg".toList, 2⟩]).2) ∧
    ((⟨2, "a.jpg".toList, 2⟩ : MFile), [["a_#2.jpg".toList]].flatten) ∈
      generate_destination
        [⟨0, "b.jpg".toList, 0⟩, ⟨1, "a.jpg".toList, 1⟩, ⟨2, "a.jpg".toList, 2⟩]
        [] "_#".toList :=
  ⟨by decide,
   collision_renaming.1
     [⟨0, "b.jpg".toList, 0⟩, ⟨1, "a.jpg".toList, 1⟩, ⟨2, "a.jpg".toList, 2⟩]
     [] "_#".toList [⟨1, "a.jpg".toList, 1⟩, ⟨2, "a.jpg".toList, 2⟩]
     (by decide) 1 (by decide)⟩

end PictureSorter

namespace PictureSorter

/-! ### C8 / C10: save_media planning, NoDateFound handling -/

theorem gd_cover (files : List MFile) (dest : Path) (sfx : Name)
    (f : MFile) (hf : f ∈ files) :
    ∃ p, (f, p) ∈ generate_destination files dest sfx := by
  have hfin : f ∈ lookupG f.name (groupByKey (fun f : MFile => f.name) files) :=
    mem_own_name_group hf
  have hne : lookupG f.name (groupByKey (fun f : MFile => f.name) files) ≠ [] := by
    intro hc; rw [hc] at hfin; simp at hfin
  have hmem : (f.name, lookupG f.name (groupByKey (fun f : MFile => f.name) files)) ∈
      groupByKey (fun f : MFile => f.name) files := mem_of_lookupG hne
  by_cases hlen :
      (lookupG f.name (groupByKey (fun f : MFile => f.name) files)).length = 1
  · have hsing : lookupG f.name (groupByKey (fun f : MFile => f.name) files) = [f] :=
      list_eq_singleton_of hlen hfin
    rw [hsing] at hmem
    refine ⟨dest ++ [f.name], ?_⟩
    rw [generate_destination]
    exact List.mem_append_left _ (List.mem_map.2 ⟨f, mem_unique_part hmem, rfl⟩)
  · have hdup : lookupG f.name (groupByKey (fun f : MFile => f.name) files) ∈
        (find_duplicate_names files).2 := by
      rw [find_duplicate_names]
      exact List.mem_filterMap.2 ⟨_, hmem, by rw [if_neg hlen]⟩
    obtain ⟨⟨i, hi⟩, hg⟩ := List.mem_iff_get.1 hfin
    have hmm := dup_member_dest files dest sfx _ hdup i hi
    rw [hg] at hmm
    exact ⟨_, hmm⟩

theorem gd_src_shape (files : List MFile) (dest : Path) (sfx : Name)
    (f : MFile) (p : Path) (h : (f, p) ∈ generate_destination files dest sfx) :
    f ∈ files ∧ ∃ n, p = dest ++ [n] := by
  rw [generate_destination] at h
  rcases List.mem_append.1 h with h1 | h2
  · obtain ⟨x, hx, heq⟩ := List.mem_map.1 h1
    obtain ⟨hfx, hp⟩ := Prod.mk.inj heq
    have hxmem : x ∈ files := by
      rw [find_duplicate_names] at hx
      obtain ⟨⟨k, g⟩, hkg, hpick⟩ := List.mem_filterMap.1 hx
      have hxg : x ∈ g := by
        cases g with
        | nil => simp at hpick
        | cons a t =>
          cases t with
          | nil =>
            simp only [Option.some.injEq] at hpick
            rw [← hpick]
            exact List.mem_cons_self _ _
          | cons b u => simp at hpick
      exact (groupByKey_invariant (q := fun q : MFile => q.name) files).2.2
        _ hkg _ hxg
    exact ⟨hfx ▸ hxmem, x.name, hp.symm⟩
  · obtain ⟨g, hg, hin⟩ := List.mem_flatMap.1 h2
    obtain ⟨⟨a, nm⟩, hzip, heq⟩ := List.mem_map.1 hin
    obtain ⟨hfa, hp⟩ := Prod.mk.inj heq
    have hag : a ∈ g := (List.of_mem_zip hzip).1
    obtain ⟨k, hkg, _⟩ := mem_dup_part hg
    have hamem : a ∈ files :=
      (groupByKey_invariant (q := fun q : MFile => q.name) files).2.2 _ hkg _ hag
    exact ⟨hfa ▸ hamem, nm, hp.symm⟩

theorem bucketKey_nodate {f : MFile} (h : parse_date f.name = none) :
    bucketKey 1 f = NO_DATE ∧ bucketKey 2 f = NO_DATE ∧ bucketKey 3 f = NO_DATE := by
  rw [bucketKey, bucketKey, bucketKey, h]
  exact ⟨rfl, rfl, rfl⟩

theorem bucketKey_nodate_any {f : MFile} (depth : Nat)
    (h : parse_date f.name = none) : bucketKey depth f = NO_DATE := by
  rw [bucketKey, h]

/-- C8: for depth ≥ 1, a `NoDateFound` outcome never aborts the batch: every
deduplicated file receives a placement entry, and a file whose name yields
no date is assigned to the `NO_DATE` bucket. -/
theorem nodate_never_aborts (files : List MFile) (depth : Nat) (f : MFile)
    (h1 : 1 ≤ depth) (h3 : depth ≤ 3) (hf : f ∈ unique_media files) :
    (∃ p, (f, p) ∈ save_media_plan files depth) ∧
    (parse_date f.name = none →
      ∃ fs, (NO_DATE, fs) ∈ dateBuckets depth files ∧ f ∈ fs) := by
  have hfin : f ∈ lookupG (bucketKey depth f) (dateBuckets depth files) := by
    rw [dateBuckets, lookupG_groupByKey, List.mem_filter]
    exact ⟨hf, by simp⟩
  have hne : lookupG (bucketKey depth f) (dateBuckets depth files) ≠ [] := by
    intro hc; rw [hc] at hfin; simp at hfin
  have hmem : (bucketKey depth f,
      lookupG (bucketKey depth f) (dateBuckets depth files)) ∈ dateBuckets depth files :=
    mem_of_lookupG hne
  constructor
  · obtain ⟨p, hp⟩ := gd_cover
      (lookupG (bucketKey depth f) (dateBuckets depth files))
      (splitSlash (bucketKey depth f)) "_#".toList f hfin
    refine ⟨p, ?_⟩
    rw [save_media_plan, if_neg (by omega)]
    exact List.mem_flatMap.2 ⟨_, hmem, hp⟩
  · intro hnone
    refine ⟨lookupG (bucketKey depth f) (dateBuckets depth files), ?_, hfin⟩
    rw [bucketKey_nodate_any depth hnone] at hmem ⊢
    exact hmem

/-- Witness for C8: a file with no date in its name still gets an entry and
lands in the `no-date` bucket. -/
theorem nodate_never_aborts_w :
    ((⟨1, "vacation.jpg".toList, 1⟩ : MFile) ∈
      unique_media [⟨0, "20230415.jpg".toList, 0⟩, ⟨1, "vacation.jpg".toList, 1⟩]) ∧
    (∃ p, ((⟨1, "vacation.jpg".toList, 1⟩ : MFile), p) ∈
      save_media_plan [⟨0, "20230415.jpg".toList, 0⟩, ⟨1, "vacation.jpg".toList, 1⟩] 1) ∧
    (∃ fs, (NO_DATE, fs) ∈
        dateBuckets 1 [⟨0, "20230415.jpg".toList, 0⟩, ⟨1, "vacation.jpg".toList, 1⟩] ∧
      (⟨1, "vacation.jpg".toList, 1⟩ : MFile) ∈ fs) := by
  refine ⟨by decide, ?_⟩
  have h := nodate_never_aborts
    [⟨0, "20230415.jpg".toList, 0⟩, ⟨1, "vacation.jpg".toList, 1⟩] 1
    ⟨1, "vacation.jpg".toList, 1⟩ (by decide) (by decide) (by decide)
  exact ⟨h.1, h.2 (by decide)⟩

/-- C10: for depth ≥ 1, every placement entry of a file whose name yields
`NoDateFound` has the literal directory `"no-date"` as the first component
of its (output-root-relative) destination, and every such deduplicated file
has such an entry. -/
theorem nodate_dir_first_component :
    (∀ (files : List MFile) (depth : Nat) (f : MFile) (p : Path),
      1 ≤ depth → depth ≤ 3 → (f, p) ∈ save_media_plan files depth →
      parse_date f.name = none → p.head? = some NO_DATE) ∧
    (∀ (files : List MFile) (depth : Nat) (f : MFile),
      1 ≤ depth → depth ≤ 3 → f ∈ unique_media files → parse_date f.name = none →
      ∃ p, (f, p) ∈ save_media_plan files depth ∧ p.head? = some NO_DATE) := by
  have hsplit : splitSlash NO_DATE = [NO_DATE] := by decide
  constructor
  · intro files depth f p h1 _ hp hnone
    rw [save_media_plan, if_neg (by omega)] at hp
    obtain ⟨⟨k, fs⟩, hkfs, hin⟩ := List.mem_flatMap.1 hp
    obtain ⟨hffs, n, hn⟩ := gd_src_shape fs (splitSlash k) "_#".toList f p hin
    have hkey : f.name.length = f.name.length := rfl
    have hkf : bucketKey depth f = k := by
      have := (groupByKey_invariant
        (q := bucketKey depth) (unique_media files)).2.1 _ hkfs _ hffs
      exact this
    have hknd : k = NO_DATE := by
      rw [← hkf, bucketKey_nodate_any depth hnone]
    subst hknd
    rw [hn, hsplit]
    rfl
  · intro files depth f h1 h3 hf hnone
    have hfin : f ∈ lookupG (bucketKey depth f) (dateBuckets depth files) := by
      rw [dateBuckets, lookupG_groupByKey, List.mem_filter]
      exact ⟨hf, by simp⟩
    have hne : lookupG (bucketKey depth f) (dateBuckets depth files) ≠ [] := by
      intro hc; rw [hc] at hfin; simp at hfin
    have hmem : (bucketKey depth f,
        lookupG (bucketKey depth f) (dateBuckets depth files)) ∈ dateBuckets depth files :=
      mem_of_lookupG hne
    obtain ⟨p, hp⟩ := gd_cover
      (lookupG (bucketKey depth f) (dateBuckets depth files))
      (splitSlash (bucketKey depth f)) "_#".toList f hfin
    obtain ⟨_, n, hn⟩ := gd_src_shape _ _ _ _ _ hp
    refine ⟨p, ?_, ?_⟩
    · rw [save_media_plan, if_neg (by omega)]
      exact List.mem_flatMap.2 ⟨_, hmem, hp⟩
    · rw [hn, bucketKey_nodate_any depth hnone, hsplit]
      rfl

/-- Witness for C10 at a concrete no-date file. -/
theorem nodate_dir_first_component_w :
    (((⟨1, "vacation.jpg".toList, 1⟩ : MFile), [NO_DATE, "vacation.jpg".toList]) ∈
      save_media_plan [⟨0, "20230415.jpg".toList, 0⟩, ⟨1, "vacation.jpg".toList, 1⟩] 1) ∧
    ([NO_DATE, "vacation.jpg".toList] : Path).head? = some NO_DATE :=
  ⟨by decide,
   nodate_dir_first_component.1
     [⟨0, "20230415.jpg".toList, 0⟩, ⟨1, "vacation.jpg".toList, 1⟩] 1
     ⟨1, "vacation.jpg".toList, 1⟩ [NO_DATE, "vacation.jpg".toList]
     (by decide) (by decide) (by decide) (by decide)⟩

end PictureSorter

namespace PictureSorter

/-! ### Substring toolkit (C1) -/

theorem listStarts_self_append (pat t : List Char) :
    listStarts pat (pat ++ t) = true := by
  induction pat with
  | nil => rfl
  | cons a as ih => simp [listStarts, ih]

theorem containsSub_of_starts {pat l : List Char}
    (h : listStarts pat l = true) : containsSub pat l = true := by
  cases l with
  | nil => exact h
  | cons c r => rw [containsSub, h, Bool.true_or]

theorem containsSub_append_right {pat t : List Char} (l : List Char)
    (h : containsSub pat t = true) : containsSub pat (l ++ t) = true := by
  induction l with
  | nil => exact h
  | cons c r ih => rw [List.cons_append, containsSub, ih, Bool.or_true]

theorem listStarts_extend {pat l : List Char} (t : List Char)
    (h : listStarts pat l = true) : listStarts pat (l ++ t) = true := by
  induction pat generalizing l with
  | nil => rfl
  | cons a as ih =>
    cases l with
    | nil => simp [listStarts] at h
    | cons b bs =>
      rw [listStarts, Bool.and_eq_true] at h
      rw [List.cons_append, listStarts, h.1, ih h.2, Bool.and_self]

theorem containsSub_nil_pat (t : List Char) :
    containsSub [] t = true := by
  cases t with
  | nil => rfl
  | cons c r => rw [containsSub]; rfl

theorem containsSub_append_left {pat l : List Char} (t : List Char)
    (h : containsSub pat l = true) : containsSub pat (l ++ t) = true := by
  induction l with
  | nil =>
    cases pat with
    | nil => exact containsSub_nil_pat t
    | cons a as => simp [containsSub, listStarts] at h
  | cons c r ih =>
    rw [containsSub, Bool.or_eq_true] at h
    rw [List.cons_append, containsSub, Bool.or_eq_true]
    rcases h with h1 | h2
    · exact Or.inl (listStarts_extend t h1)
    · exact Or.inr (ih h2)

theorem containsSub_mid (S rest : List Char) (pat : List Char) :
    containsSub pat (S ++ pat ++ rest) = true := by
  rw [List.append_assoc]
  exact containsSub_append_right S
    (containsSub_of_starts (listStarts_self_append pat rest))

/-! ### Decimal value lemmas (C1, C5) -/

theorem digitChar_isDigit {m : Nat} (h : m < 10) :
    (Nat.digitChar m).isDigit = true := by
  interval_cases m <;> decide

theorem digitChar_val {m : Nat} (h : m < 10) :
    (Nat.digitChar m).toNat - 48 = m := by
  interval_cases m <;> decide

theorem toDecAux_all_digits : ∀ fuel n, (toDecAux fuel n).all Char.isDigit = true := by
  intro fuel
  induction fuel with
  | zero => intro n; rfl
  | succ m ih =>
    intro n
    rw [toDecAux]
    by_cases hn : n = 0
    · rw [if_pos hn]; rfl
    · rw [if_neg hn, List.all_append, ih, Bool.true_and, List.all_cons,
        digitChar_isDigit (Nat.mod_lt _ (by omega)), Bool.true_and]
      rfl

theorem toDec_all_digits (n : Nat) : (toDec n).all Char.isDigit = true := by
  rw [toDec]
  by_cases hn : n = 0
  · rw [if_pos hn]; rfl
  · rw [if_neg hn]; exact toDecAux_all_digits n n

theorem padNum_all_digits (i w : Nat) : (padNum i w).all Char.isDigit = true := by
  rw [padNum, List.all_append, toDec_all_digits, Bool.and_true]
  rw [List.all_eq_true]
  intro c hc
  rw [List.eq_of_mem_replicate hc]
  decide

theorem toDec_ne_nil (n : Nat) : toDec n ≠ [] := by
  rw [toDec]
  by_cases hn : n = 0
  · rw [if_pos hn]; simp
  · rw [if_neg hn]
    obtain ⟨m, rfl⟩ : ∃ m, n = m + 1 := ⟨n - 1, by omega⟩
    rw [toDecAux, if_neg hn]
    simp

theorem padNum_ne_nil (i w : Nat) : padNum i w ≠ [] := by
  rw [padNum]
  intro hc
  rcases List.append_eq_nil.1 hc with ⟨_, h2⟩
  exact toDec_ne_nil i h2

theorem decVal_append_digit (l : List Char) (c : Char) :
    decVal (l ++ [c]) = 10 * decVal l + (c.toNat - 48) := by
  rw [decVal, decVal, List.foldl_append]
  rfl

theorem decVal_toDecAux : ∀ fuel n, n ≤ fuel → decVal (toDecAux fuel n) = n := by
  intro fuel
  induction fuel with
  | zero => intro n h; interval_cases n; rfl
  | succ m ih =>
    intro n h
    rw [toDecAux]
    by_cases hn : n = 0
    · rw [if_pos hn]; rw [hn]; rfl
    · rw [if_neg hn, decVal_append_digit,
        ih (n / 10) (by have := Nat.div_lt_self (by omega : 0 < n) (by omega : 1 < 10); omega),
        digitChar_val (Nat.mod_lt _ (by omega))]
      omega

theorem decVal_toDec (n : Nat) : decVal (toDec n) = n := by
  rw [toDec]
  by_cases hn : n = 0
  · rw [if_pos hn, hn]; rfl
  · rw [if_neg hn]; exact decVal_toDecAux n n (le_refl n)

theorem decVal_zeros_append (z : Nat) (s : List Char) :
    decVal (List.replicate z '0' ++ s) = decVal s := by
  induction z with
  | zero => rfl
  | succ m ih =>
    rw [List.replicate_succ, List.cons_append]
    rw [decVal] at ih ⊢
    rw [List.foldl_cons]
    have : (10 * 0 + ('0'.toNat - 48)) = 0 := by decide
    rw [this]
    exact ih

theorem padNum_val (i w : Nat) : decVal (padNum i w) = i := by
  rw [padNum, decVal_zeros_append, decVal_toDec]

theorem padNum_inj {i w j w' : Nat} (h : padNum i w = padNum j w') : i = j := by
  have := congrArg decVal h
  rw [padNum_val, padNum_val] at this
  exact this

end PictureSorter

namespace PictureSorter

/-! ### Rename-pattern injectivity (C1) -/

theorem sfxSplit_inj :
    ∀ (S1 : List Char) (S2 R1 R2 : List Char),
      containsSub ['_', '#'] S1 = false → containsSub ['_', '#'] S2 = false →
      S1 ++ '_' :: '#' :: R1 = S2 ++ '_' :: '#' :: R2 → S1 = S2 ∧ R1 = R2 := by
  intro S1
  induction S1 with
  | nil =>
    intro S2 R1 R2 _ h2 h
    cases S2 with
    | nil =>
      rw [List.nil_append, List.nil_append] at h
      obtain ⟨_, h⟩ := List.cons.inj h
      obtain ⟨_, h⟩ := List.cons.inj h
      exact ⟨rfl, h⟩
    | cons c S2' =>
      rw [List.nil_append, List.cons_append] at h
      obtain ⟨hc, h⟩ := List.cons.inj h
      cases S2' with
      | nil =>
        rw [List.nil_append] at h
        obtain ⟨hc2, _⟩ := List.cons.inj h
        exact absurd hc2 (by decide)
      | cons c2 S2'' =>
        rw [List.cons_append] at h
        obtain ⟨hc2, _⟩ := List.cons.inj h
        subst hc
        subst hc2
        simp [containsSub, listStarts] at h2
  | cons c S1' ih =>
    intro S2 R1 R2 h1 h2 h
    cases S2 with
    | nil =>
      rw [List.nil_append, List.cons_append] at h
      obtain ⟨hc, h'⟩ := List.cons.inj h
      cases S1' with
      | nil =>
        rw [List.nil_append] at h'
        obtain ⟨hc2, _⟩ := List.cons.inj h'
        exact absurd hc2 (by decide)
      | cons c2 S1'' =>
        rw [List.cons_append] at h'
        obtain ⟨hc2, _⟩ := List.cons.inj h'
        subst hc
        subst hc2
        simp [containsSub, listStarts] at h1
    | cons c' S2' =>
      rw [List.cons_append, List.cons_append] at h
      obtain ⟨hc, h'⟩ := List.cons.inj h
      rw [containsSub, Bool.or_eq_false_iff] at h1 h2
      obtain ⟨hS, hR⟩ := ih S2' R1 R2 h1.2 h2.2 h'
      subst hc
      exact ⟨by rw [hS], hR⟩

theorem takeWhile_digits {p E : List Char}
    (hp : p.all Char.isDigit = true)
    (hE : E = [] ∨ ∃ t, E = '.' :: t) :
    (p ++ E).takeWhile Char.isDigit = p ∧
    (p ++ E).dropWhile Char.isDigit = E := by
  induction p with
  | nil =>
    rcases hE with h | ⟨t, h⟩
    · subst h; exact ⟨rfl, rfl⟩
    · subst h
      constructor
      · rw [List.nil_append, List.takeWhile_cons, if_neg (by decide)]
      · rw [List.nil_append, List.dropWhile_cons, if_neg (by decide)]
  | cons c r ih =>
    rw [List.all_cons, Bool.and_eq_true] at hp
    obtain ⟨ih1, ih2⟩ := ih hp.2
    constructor
    · rw [List.cons_append, List.takeWhile_cons, hp.1, if_pos rfl, ih1]
    · rw [List.cons_append, List.dropWhile_cons, hp.1, if_pos rfl, ih2]

theorem digits_split {p1 E1 p2 E2 : List Char}
    (hp1 : p1.all Char.isDigit = true) (hp2 : p2.all Char.isDigit = true)
    (hE1 : E1 = [] ∨ ∃ t, E1 = '.' :: t) (hE2 : E2 = [] ∨ ∃ t, E2 = '.' :: t)
    (h : p1 ++ E1 = p2 ++ E2) : p1 = p2 ∧ E1 = E2 := by
  obtain ⟨t1, d1⟩ := takeWhile_digits hp1 hE1
  obtain ⟨t2, d2⟩ := takeWhile_digits hp2 hE2
  rw [h] at t1 d1
  exact ⟨t1.symm.trans t2, d1.symm.trans d2⟩

theorem beforeDot_spec :
    ∀ (l t s : List Char), beforeDot l = some (t, s) → l = t ++ '.' :: s := by
  intro l
  induction l with
  | nil => intro t s h; simp [beforeDot] at h
  | cons c r ih =>
    intro t s h
    rw [beforeDot] at h
    by_cases hc : c = '.'
    · rw [if_pos hc, Option.some.injEq] at h
      obtain ⟨ht, hs⟩ := Prod.mk.inj h.symm
      rw [ht, hs, List.nil_append, hc]
    · rw [if_neg hc] at h
      rcases hb : beforeDot r with _ | ⟨t', s'⟩
      · rw [hb] at h
        exact Option.noConfusion h
      · rw [hb] at h
        simp only [Option.map_some', Option.some.injEq] at h
        obtain ⟨ht, hs⟩ := Prod.mk.inj h.symm
        rw [ht, hs, List.cons_append, ih t' s' hb]

theorem stem_append_suffix (n : Name) : fileStem n ++ fileSuffix n = n := by
  rcases hb : beforeDot n.reverse with _ | ⟨t, s⟩
  · simp [fileStem, fileSuffix, hb]
  · have hspec := beforeDot_spec _ _ _ hb
    by_cases hcond : s ≠ [] ∧ t ≠ []
    · simp only [fileStem, fileSuffix, hb, if_pos hcond]
      have hn : n = (t ++ '.' :: s).reverse := by
        rw [← hspec, List.reverse_reverse]
      rw [hn, List.reverse_append, List.reverse_cons, List.append_assoc,
        List.singleton_append]
    · simp only [fileStem, fileSuffix, hb, if_neg hcond, List.append_nil]

theorem fileSuffix_shape (n : Name) :
    fileSuffix n = [] ∨ ∃ t, fileSuffix n = '.' :: t := by
  rcases hb : beforeDot n.reverse with _ | ⟨t, s⟩
  · exact Or.inl (by simp [fileSuffix, hb])
  · by_cases hcond : s ≠ [] ∧ t ≠ []
    · refine Or.inr ⟨t.reverse, ?_⟩
      simp [fileSuffix, hb, if_pos hcond]
    · exact Or.inl (by simp only [fileSuffix, hb, if_neg hcond])

theorem genName_inj {S1 E1 : List Char} {i1 w1 : Nat} {S2 E2 : List Char} {i2 w2 : Nat}
    (hS1 : containsSub ['_', '#'] S1 = false) (hS2 : containsSub ['_', '#'] S2 = false)
    (hE1 : E1 = [] ∨ ∃ t, E1 = '.' :: t) (hE2 : E2 = [] ∨ ∃ t, E2 = '.' :: t)
    (h : S1 ++ ['_', '#'] ++ padNum i1 w1 ++ E1 = S2 ++ ['_', '#'] ++ padNum i2 w2 ++ E2) :
    S1 = S2 ∧ i1 = i2 ∧ E1 = E2 := by
  have hre : ∀ (S p E : List Char), S ++ ['_', '#'] ++ p ++ E = S ++ '_' :: '#' :: (p ++ E) := by
    intro S p E
    rw [List.append_assoc, List.append_assoc]
    rfl
  rw [hre, hre] at h
  obtain ⟨hS, hrest⟩ := sfxSplit_inj S1 S2 _ _ hS1 hS2 h
  obtain ⟨hp, hE⟩ := digits_split (padNum_all_digits i1 w1) (padNum_all_digits i2 w2)
    hE1 hE2 hrest
  exact ⟨hS, padNum_inj hp, hE⟩

end PictureSorter

namespace PictureSorter

/-! ### C1: destination distinctness -/

theorem flatMap_congr {α β : Type} {l : List α} {f g : α → List β}
    (h : ∀ x ∈ l, f x = g x) : l.flatMap f = l.flatMap g := by
  induction l with
  | nil => rfl
  | cons x r ih =>
    rw [List.flatMap_cons, List.flatMap_cons, h x (List.mem_cons_self _ _),
      ih (fun y hy => h y (List.mem_cons_of_mem _ hy))]

theorem map_snd_zipmap (dest : Path) (g : List MFile) (nm : List Name)
    (hlen : nm.length = g.length) :
    ((g.zip nm).map (fun fn => (fn.1, dest ++ [fn.2]))).map (fun e => e.2) =
      nm.map (fun n => dest ++ [n]) := by
  have h2 : (g.zip nm).map Prod.snd = nm := List.map_snd_zip g nm (le_of_eq hlen)
  calc ((g.zip nm).map (fun fn => (fn.1, dest ++ [fn.2]))).map (fun e => e.2)
      = ((g.zip nm).map Prod.snd).map (fun n => dest ++ [n]) := by
        rw [List.map_map, List.map_map]
        rfl
    _ = nm.map (fun n => dest ++ [n]) := by rw [h2]

theorem gd_dests_eq (files : List MFile) (dest : Path) (sfx : Name) :
    (generate_destination files dest sfx).map (fun e => e.2) =
      ((find_duplicate_names files).1.map (fun f => f.name) ++
       (find_duplicate_names files).2.flatMap (fun g =>
         generate_names (fileStem g.headI.name) (fileSuffix g.headI.name)
           g.length sfx)).map (fun n => dest ++ [n]) := by
  rw [generate_destination, List.map_append, List.map_append, List.map_map,
    List.map_map, List.map_flatMap, List.map_flatMap]
  congr 1
  exact flatMap_congr (fun g _ =>
    map_snd_zipmap dest g _ (generate_names_length _ _ _ _))

theorem unique_part_subset {files : List MFile} {x : MFile}
    (hx : x ∈ (find_duplicate_names files).1) : x ∈ files := by
  rw [find_duplicate_names] at hx
  obtain ⟨⟨k, g⟩, hkg, hpick⟩ := List.mem_filterMap.1 hx
  have hxg : x ∈ g := by
    cases g with
    | nil => simp at hpick
    | cons a t =>
      cases t with
      | nil =>
        simp only [Option.some.injEq] at hpick
        rw [← hpick]
        exact List.mem_cons_self _ _
      | cons b u => simp at hpick
  exact (groupByKey_invariant (q := fun q : MFile => q.name) files).2.2 _ hkg _ hxg

theorem unique_names_sublist :
    ∀ (gs : List (Name × List MFile)),
      (∀ kg ∈ gs, ∀ x ∈ kg.2, x.name = kg.1) →
      ((gs.filterMap (fun kg => match kg.2 with | [x] => some x | _ => none)).map
        (fun f => f.name)).Sublist (gs.map Prod.fst) := by
  intro gs
  induction gs with
  | nil => intro _; simp
  | cons kg r ih =>
    intro hk
    obtain ⟨k, g⟩ := kg
    have hr := ih (fun kg' h' => hk kg' (List.mem_cons_of_mem _ h'))
    cases g with
    | nil =>
      show ((r.filterMap (fun kg => match kg.2 with | [x] => some x | _ => none)).map
        (fun f => f.name)).Sublist (k :: r.map Prod.fst)
      exact hr.cons k
    | cons x t =>
      cases t with
      | nil =>
        show ((x :: r.filterMap (fun kg => match kg.2 with | [x] => some x | _ => none)).map
          (fun f => f.name)).Sublist (k :: r.map Prod.fst)
        rw [List.map_cons]
        have hx : x.name = k :=
          hk (k, [x]) (List.mem_cons_self _ _) x (List.mem_cons_self _ _)
        rw [hx]
        exact hr.cons₂ k
      | cons y u =>
        show ((r.filterMap (fun kg => match kg.2 with | [x] => some x | _ => none)).map
          (fun f => f.name)).Sublist (k :: r.map Prod.fst)
        exact hr.cons k

theorem generate_names_nodup (S E sfx : Name) (size : Nat) :
    (generate_names S E size sfx).Nodup := by
  rw [generate_names]
  refine List.Nodup.map_on ?_ (List.nodup_range' _ _)
  intro x _ y _ h
  have h2 := List.append_cancel_right h
  have h3 := List.append_cancel_left h2
  exact padNum_inj h3

theorem stem_sfx_free {n : Name} (hn : containsSub ['_', '#'] n = false) :
    containsSub ['_', '#'] (fileStem n) = false := by
  cases hcs : containsSub ['_', '#'] (fileStem n) with
  | false => rfl
  | true =>
    have h := containsSub_append_left (fileSuffix n) hcs
    rw [stem_append_suffix] at h
    rw [h] at hn
    exact absurd hn (by simp)

theorem mem_generate_names {n S E sfx : Name} {size : Nat}
    (h : n ∈ generate_names S E size sfx) :
    ∃ i, n = S ++ sfx ++ padNum i (zeroPadWidth size) ++ E := by
  rw [generate_names] at h
  obtain ⟨i, _, heq⟩ := List.mem_map.1 h
  exact ⟨i, heq.symm⟩

theorem dup_group_facts {files : List MFile} {g : List MFile}
    (hfree : ∀ f ∈ files, containsSub ['_', '#'] f.name = false)
    (hg : g ∈ (find_duplicate_names files).2) :
    ∃ k, (k, g) ∈ groupByKey (fun f : MFile => f.name) files ∧
      g.headI.name = k ∧ containsSub ['_', '#'] g.headI.name = false := by
  obtain ⟨k, hkg, _⟩ := mem_dup_part hg
  obtain ⟨hne, hkey, hmemb⟩ := groupByKey_invariant (q := fun q : MFile => q.name) files
  have hgne : g ≠ [] := hne _ hkg
  have hh : g.headI ∈ g := headI_mem hgne
  exact ⟨k, hkg, hkey _ hkg _ hh, hfree _ (hmemb _ hkg _ hh)⟩

theorem dup_names_disjoint_core {files : List MFile} {g1 g2 : List MFile}
    (hfree : ∀ f ∈ files, containsSub ['_', '#'] f.name = false)
    (hg1 : g1 ∈ (find_duplicate_names files).2)
    (hg2 : g2 ∈ (find_duplicate_names files).2)
    (hname : g1.headI.name ≠ g2.headI.name) :
    (generate_names (fileStem g1.headI.name) (fileSuffix g1.headI.name)
      g1.length ['_', '#']).Disjoint
    (generate_names (fileStem g2.headI.name) (fileSuffix g2.headI.name)
      g2.length ['_', '#']) := by
  intro n hn1 hn2
  obtain ⟨_, _, _, hfree1⟩ := dup_group_facts hfree hg1
  obtain ⟨_, _, _, hfree2⟩ := dup_group_facts hfree hg2
  obtain ⟨i, hi⟩ := mem_generate_names hn1
  obtain ⟨j, hj⟩ := mem_generate_names hn2
  rw [hi] at hj
  obtain ⟨hS, _, hE⟩ := genName_inj (stem_sfx_free hfree1) (stem_sfx_free hfree2)
    (fileSuffix_shape _) (fileSuffix_shape _) hj
  refine hname ?_
  rw [← stem_append_suffix g1.headI.name, ← stem_append_suffix g2.headI.name, hS, hE]

/-- C1 amended: when no input filename contains the rename suffix `"_#"` as
a substring, all destination paths produced by the planner are pairwise
distinct. -/
theorem destination_distinct_amended (files : List MFile) (dest : Path)
    (hfree : ∀ f ∈ files, containsSub "_#".toList f.name = false) :
    ((generate_destination files dest "_#".toList).map (fun e => e.2)).Nodup := by
  have hfree' : ∀ f ∈ files, containsSub ['_', '#'] f.name = false := hfree
  rw [gd_dests_eq]
  refine List.Nodup.map ?_ ?_
  · intro a b h
    have h2 := List.append_cancel_left h
    exact (List.cons.inj h2).1
  · refine List.Nodup.append ?_ ?_ ?_
    · refine List.Nodup.sublist
        (unique_names_sublist (groupByKey (fun f : MFile => f.name) files)
          (groupByKey_invariant (q := fun q : MFile => q.name) files).2.1)
        ?_
      exact nodup_keys_groupByKey files
    · rw [List.nodup_flatMap]
      constructor
      · intro g _
        exact generate_names_nodup _ _ _ _
      · have hpw : List.Pairwise (fun a b : Name × List MFile => a.1 ≠ b.1)
            (groupByKey (fun f : MFile => f.name) files) :=
          List.pairwise_map.1 (nodup_keys_groupByKey files)
        have hpw2 : List.Pairwise
            (fun a b : Name × List MFile =>
              ∀ g1 ∈ (if a.2.length = 1 then none else some a.2),
              ∀ g2 ∈ (if b.2.length = 1 then none else some b.2),
                (generate_names (fileStem g1.headI.name) (fileSuffix g1.headI.name)
                  g1.length "_#".toList).Disjoint
                (generate_names (fileStem g2.headI.name) (fileSuffix g2.headI.name)
                  g2.length "_#".toList))
            (groupByKey (fun f : MFile => f.name) files) := by
          refine hpw.imp_of_mem ?_
          intro a b ha hb hne g1 hg1 g2 hg2
          by_cases hl1 : a.2.length = 1
          · rw [if_pos hl1] at hg1; simp at hg1
          · by_cases hl2 : b.2.length = 1
            · rw [if_pos hl2] at hg2; simp at hg2
            · rw [if_neg hl1, Option.mem_def, Option.some.injEq] at hg1
              rw [if_neg hl2, Option.mem_def, Option.some.injEq] at hg2
              subst hg1
              subst hg2
              have hd1 : a.2 ∈ (find_duplicate_names files).2 := by
                rw [find_duplicate_names]
                exact List.mem_filterMap.2 ⟨a, ha, by rw [if_neg hl1]⟩
              have hd2 : b.2 ∈ (find_duplicate_names files).2 := by
                rw [find_duplicate_names]
                exact List.mem_filterMap.2 ⟨b, hb, by rw [if_neg hl2]⟩
              obtain ⟨hane, hakey, _⟩ :=
                groupByKey_invariant (q := fun q : MFile => q.name) files
              have hn1 : a.2.headI.name = a.1 :=
                hakey _ ha _ (headI_mem (hane _ ha))
              have hn2 : b.2.headI.name = b.1 :=
                hakey _ hb _ (headI_mem (hane _ hb))
              exact dup_names_disjoint_core hfree' hd1 hd2
                (by rw [hn1, hn2]; exact hne)
        rw [find_duplicate_names]
        exact List.Pairwise.filterMap _ (fun a b hab g1 hg1 g2 hg2 => hab g1 hg1 g2 hg2) hpw2
    · rw [List.disjoint_left]
      intro n hnA hnB
      obtain ⟨x, hxU, hxn⟩ := List.mem_map.1 hnA
      have hxfree : containsSub ['_', '#'] n = false := by
        rw [← hxn]
        exact hfree' x (unique_part_subset hxU)
      obtain ⟨g, _, hng⟩ := List.mem_flatMap.1 hnB
      obtain ⟨i, hni⟩ := mem_generate_names hng
      have : containsSub ['_', '#'] n = true := by
        rw [hni]
        have hmid := containsSub_mid (fileStem g.headI.name)
          (padNum i (zeroPadWidth g.length) ++ fileSuffix g.headI.name) ['_', '#']
        rw [List.append_assoc] at hmid ⊢
        rw [List.append_assoc]
        exact hmid
      rw [this] at hxfree
      exact absurd hxfree (by simp)

/-- C1 counterexample: with a unique-named file `a_#1.jpg` and two colliding
files `a.jpg`, the planner assigns the destination `a_#1.jpg` twice. -/
theorem destination_distinct_cex :
    ¬ ((generate_destination
        [⟨0, "a_#1.jpg".toList, 0⟩, ⟨1, "a.jpg".toList, 1⟩, ⟨2, "a.jpg".toList, 2⟩]
        [] "_#".toList).map (fun e => e.2)).Nodup := by decide

/-- Witness for the amended C1 at a concrete suffix-free input. -/
theorem destination_distinct_amended_w :
    (∀ f ∈ ([⟨0, "b.jpg".toList, 0⟩, ⟨1, "a.jpg".toList, 1⟩, ⟨2, "a.jpg".toList, 2⟩] :
        List MFile), containsSub "_#".toList f.name = false) ∧
    ((generate_destination
        [⟨0, "b.jpg".toList, 0⟩, ⟨1, "a.jpg".toList, 1⟩, ⟨2, "a.jpg".toList, 2⟩]
        ["out".toList] "_#".toList).map (fun e => e.2)).Nodup :=
  ⟨by decide,
   destination_distinct_amended
     [⟨0, "b.jpg".toList, 0⟩, ⟨1, "a.jpg".toList, 1⟩, ⟨2, "a.jpg".toList, 2⟩]
     ["out".toList] (by decide)⟩

end PictureSorter
